import Mathlib

/-!
Shallow embedding of the caching engine in `src/cacher.py` (classes
`CacheStorage`, `CacheBackend`, `Cache` and the `async_memoize` wrapper),
together with proofs settling the specification claims about it.

Modelling conventions:
* A Python `OrderedDict` is an insertion-ordered association list with unique
  keys; assignment to an existing key updates the value in place (keeping the
  key's position), assignment to a fresh key appends at the end, and
  `popitem(last=False)` removes the head.
* A Python `Counter` is likewise an insertion-ordered association list from
  keys to counts; `c[k] += 1` updates in place or appends `(k, 1)`.
* `Counter.most_common()` is CPython's stable sort of the items by count,
  descending; the slice `[:-2:-1][0]` takes its last element, i.e. the entry
  with the minimal count and, among entries tied at that count, the one
  latest in the counter's insertion order.  `leastCommon` computes exactly
  that element directly.
* Python exceptions are modelled with `Except PyErr`; machine-level time
  (`time.time()`, a float) is modelled by an explicit integer clock passed to
  the operations that read it.
-/

namespace Cacher

/-- Python exception kinds that the embedded code can raise. -/
inductive PyErr where
  | typeError
  | valueError
  | zlibError
deriving DecidableEq, Repr

variable {K V : Type} [DecidableEq K]

/-- Lookup in an insertion-ordered association list (`dict.get` / `in`). -/
def odGet : List (K × V) → K → Option V
  | [], _ => none
  | p :: l, k => if p.1 = k then some p.2 else odGet l k

/-- Assignment `d[k] = v` on an ordered dict: update in place if the key is
present (keeping its position), otherwise append at the end. -/
def odSet : List (K × V) → K → V → List (K × V)
  | [], k, v => [(k, v)]
  | p :: l, k, v => if p.1 = k then (k, v) :: l else p :: odSet l k v

/-- Deletion `del d[k]` on an ordered dict (keys are unique, so removing every
pair with key `k` equals removing the single one). -/
def odDel : List (K × V) → K → List (K × V)
  | [], _ => []
  | p :: l, k => if p.1 = k then odDel l k else p :: odDel l k

/-- The key sequence of an ordered dict, in iteration order. -/
def odKeys (l : List (K × V)) : List K := l.map Prod.fst

/-- Counter increment `c[k] += 1`: update in place, or append `(k, 1)` when the
key is missing (the missing count reads as 0). -/
def cntInc : List (K × Nat) → K → List (K × Nat)
  | [], k => [(k, 1)]
  | p :: l, k => if p.1 = k then (p.1, p.2 + 1) :: l else p :: cntInc l k

/-- Counter read `c[k]`, with missing keys reading as 0. -/
def cntGet (u : List (K × Nat)) (k : K) : Nat := (odGet u k).getD 0

/-- Fold computing the last entry of the list whose count is minimal among all
entries seen so far: on a tie the later entry wins. -/
def lastMin : (K × Nat) → List (K × Nat) → (K × Nat)
  | x, [] => x
  | x, p :: l => lastMin (if p.2 ≤ x.2 then p else x) l

/-- Models `usage.most_common()[:-2:-1][0]` from `CacheStorage.put`:
`Counter.most_common()` is a stable descending sort by count, so its last
element is an entry of minimal count and, among the entries tied at the
minimal count, the latest one in the counter's insertion order.  `lastMin`
computes that element in one pass. -/
def leastCommon : List (K × Nat) → Option (K × Nat)
  | [] => none
  | x :: l => some (lastMin x l)

/-- The storage layer of `src/cacher.py` (`CacheStorage`): an ordered dict of
entries, an optional usage counter (allocated only for the `"lfu"` policy), a
capacity and the eviction-policy name, exactly the four attributes set in
`CacheStorage.__init__`. -/
structure CacheStorage (K V : Type) where
  data : List (K × V)
  usage : Option (List (K × Nat))
  capacity : Int
  eviction_policy : String
deriving DecidableEq

/-- `CacheStorage.__init__`: no validation is performed; the usage counter is
allocated exactly when the policy string is `"lfu"`. -/
def CacheStorage.init (capacity : Int) (eviction_policy : String := "lru") :
    CacheStorage K V :=
  { data := []
    usage := if eviction_policy = "lfu" then some [] else none
    capacity := capacity
    eviction_policy := eviction_policy }

/-- `CacheStorage.get`: under the `"lfu"` policy a lookup of a present key
first increments that key's usage count; the returned value is
`self.data.get(key)`.  The updated storage is returned alongside the value
(Python mutates in place). -/
def CacheStorage.get (s : CacheStorage K V) (key : K) :
    Option V × CacheStorage K V :=
  if s.eviction_policy = "lfu" ∧ (odGet s.data key).isSome then
    (odGet s.data key, { s with usage := s.usage.map (fun u => cntInc u key) })
  else
    (odGet s.data key, s)

/-- `CacheStorage.put`: store the value; under `"lfu"` increment the key's
usage count; then, if the size exceeds the capacity, evict one entry — the
least-common usage entry under `"lfu"` (deleted from both dict and counter),
otherwise the oldest entry (`popitem(last=False)`).  The `none` branch of the
`leastCommon` match is unreachable from reachable states (the counter was just
incremented, so it is nonempty; Python would raise `IndexError` there). -/
def CacheStorage.put (s : CacheStorage K V) (key : K) (value : V) :
    CacheStorage K V :=
  let data1 := odSet s.data key value
  let usage1 :=
    if s.eviction_policy = "lfu" then s.usage.map (fun u => cntInc u key)
    else s.usage
  if (data1.length : Int) > s.capacity then
    if s.eviction_policy = "lfu" then
      match leastCommon (usage1.getD []) with
      | some lu =>
          { s with data := odDel data1 lu.1
                   usage := usage1.map (fun u => odDel u lu.1) }
      | none => { s with data := data1, usage := usage1 }
    else
      { s with data := data1.tail, usage := usage1 }
  else
    { s with data := data1, usage := usage1 }

/-- A sequence of `put` calls, executed left to right. -/
def putSeq (s : CacheStorage K V) : List (K × V) → CacheStorage K V
  | [] => s
  | kv :: rest => putSeq (s.put kv.1 kv.2) rest

/-- Modelled external library: `zlib.compress` on a byte string (not part of
src/).  The model prepends a fixed two-byte header to the payload, keeping the
two facts the repository code relies on: the compressed form of any payload —
including the empty one — is nonempty (hence truthy), and `zlib.decompress`
inverts it. -/
def zlibCompress (v : List Nat) : List Nat := 120 :: 156 :: v

/-- Modelled external library: `zlib.decompress` (not part of src/).  It
inverts `zlibCompress` and raises `zlib.error` on any byte string not produced
by `zlibCompress`, modelling decompression failure on corrupted data. -/
def zlibDecompress : List Nat → Except PyErr (List Nat)
  | a :: b :: v =>
      if a = 120 ∧ b = 156 then Except.ok v else Except.error PyErr.zlibError
  | _ => Except.error PyErr.zlibError

/-- A Python value flowing through the `Cache` layer: a byte string, an `int`,
or the `(timestamp, value)` pair that `Cache.put` builds. -/
inductive PyVal where
  | pybytes (bs : List Nat)
  | pyint (n : Nat)
  | pypair (t : Int) (v : PyVal)
deriving DecidableEq, Repr

/-- `zlib.compress` applied to an arbitrary Python value: it raises
`TypeError` unless the argument is a byte string. -/
def compressPy : PyVal → Except PyErr (List Nat)
  | PyVal.pybytes bs => Except.ok (zlibCompress bs)
  | _ => Except.error PyErr.typeError

/-- The backend layer of `src/cacher.py` (`CacheBackend`): it owns a storage
whose values are the compressed byte strings. -/
structure CacheBackend (K : Type) where
  storage : CacheStorage K (List Nat)
deriving DecidableEq

/-- `CacheBackend.get`: fetch from storage; a truthy result (a nonempty byte
string) is decompressed — with no exception handling, so a `zlib.error` on
corrupted bytes propagates to the caller — and a falsy one (missing key or
empty byte string) yields `None`. -/
def CacheBackend.get (b : CacheBackend K) (key : K) :
    Except PyErr (Option (List Nat) × CacheBackend K) :=
  let r := b.storage.get key
  match r.1 with
  | some cd =>
      if cd = [] then Except.ok (none, ⟨r.2⟩)
      else
        match zlibDecompress cd with
        | Except.ok v => Except.ok (some v, ⟨r.2⟩)
        | Except.error e => Except.error e
  | none => Except.ok (none, ⟨r.2⟩)

/-- `CacheBackend.put` on an arbitrary Python value: `zlib.compress` the value
(raising `TypeError` unless it is a byte string), then delegate to storage. -/
def CacheBackend.putPy (b : CacheBackend K) (key : K) (value : PyVal) :
    Except PyErr (CacheBackend K) :=
  match compressPy value with
  | Except.ok cd => Except.ok ⟨b.storage.put key cd⟩
  | Except.error e => Except.error e

/-- `CacheBackend.put` restricted to byte-string values, the only case in
which `zlib.compress` succeeds; then `CacheBackend.putPy key (pybytes v)`
equals `Except.ok` of this. -/
def CacheBackend.put (b : CacheBackend K) (key : K) (value : List Nat) :
    CacheBackend K :=
  ⟨b.storage.put key (zlibCompress value)⟩

/-- The public layer of `src/cacher.py` (`Cache`): a backend, the optional
TTL, the hit/miss counters and the sweep interval computed in `__init__`.
The `asyncio.Lock` serializes all operations, so they are modelled as
sequential state transformers. -/
structure Cache (K : Type) where
  backend : CacheBackend K
  ttl : Option Int
  hits : Nat
  misses : Nat
  cleanup_interval : Int
deriving DecidableEq

/-- `Cache.__init__`: the sweep interval is `ttl // 2 or 300`.  When `ttl` is
`None`, Python evaluates `None // 2` and raises `TypeError` before the `or`
can supply the default; when `ttl // 2` is 0 (falsy) the default 300 is used.
Python's floor division `//` on ints is `Int.fdiv`. -/
def Cache.init (backend : CacheBackend K) (ttl : Option Int := some 300) :
    Except PyErr (Cache K) :=
  match ttl with
  | none => Except.error PyErr.typeError
  | some t =>
      let h := Int.fdiv t 2
      Except.ok
        { backend := backend
          ttl := some t
          hits := 0
          misses := 0
          cleanup_interval := if h = 0 then 300 else h }

/-- The truthiness test `self.ttl and now - timestamp > self.ttl` from
`Cache.get` line 93: `None` and `0` are falsy, so no entry ever expires then. -/
def ttlExpired (ttl : Option Int) (age : Int) : Bool :=
  match ttl with
  | none => false
  | some t => t != 0 && age > t

/-- `Cache.get`: delegate to the backend (propagating any exception), then
unpack `timestamp, value = entry`.  The decompressed value is a byte string,
so the unpack succeeds — binding two `int`s — exactly when it has length 2,
and raises `ValueError` otherwise; a falsy entry (`None` or empty bytes) takes
the miss branch.  On the expired branch the entry is deleted from
`self.backend.storage.data` and `None` is returned without touching `misses`;
on the fresh branch `hits` is incremented and the unpacked value (an `int`)
is returned. -/
def Cache.get (c : Cache K) (key : K) (now : Int) :
    Except PyErr (Option PyVal × Cache K) :=
  match c.backend.get key with
  | Except.error e => Except.error e
  | Except.ok (entry?, b1) =>
    match entry? with
    | none => Except.ok (none, { c with backend := b1, misses := c.misses + 1 })
    | some [] => Except.ok (none, { c with backend := b1, misses := c.misses + 1 })
    | some [t, v] =>
        if ttlExpired c.ttl (now - (t : Int)) then
          Except.ok (none,
            { c with backend :=
                ⟨{ b1.storage with data := odDel b1.storage.data key }⟩ })
        else
          Except.ok (some (PyVal.pyint v),
            { c with backend := b1, hits := c.hits + 1 })
    | some _ => Except.error PyErr.valueError

/-- `Cache.put`: stamp the current time and delegate
`backend.put(key, (timestamp, value))`; the backend hands that tuple to
`zlib.compress`, which raises `TypeError` on any non-bytes argument. -/
def Cache.put (c : Cache K) (key : K) (value : PyVal) (now : Int) :
    Except PyErr (Cache K) :=
  match c.backend.putPy key (PyVal.pypair now value) with
  | Except.ok b1 => Except.ok { c with backend := b1 }
  | Except.error e => Except.error e

/-- Modelled external library: `hashlib.sha256(...).hexdigest()` over the
printed argument list (not part of src/).  Modelled as a deterministic
injective function of its input string; the claims rely only on the derived
key being a deterministic function of the arguments. -/
def sha256hex (s : String) : String := "sha256:" ++ s

/-- Python truthiness of `result` in `async_wrapper` (`if not result:`):
`None`, `0` and empty bytes are falsy. -/
def pyTruthy : Option PyVal → Bool
  | none => false
  | some (PyVal.pybytes bs) => !bs.isEmpty
  | some (PyVal.pyint n) => n != 0
  | some (PyVal.pypair _ _) => true

/-- `Cache.async_memoize`: the wrapped call hashes the printed arguments into
a key, reads the cache, and when the result is falsy invokes the wrapped
operation, stores its result with `Cache.put` and returns it; a truthy cached
result is returned without invoking the operation.  The wrapped operation and
its printed arguments are passed explicitly (`func` is the outcome of
`await func(*args, **kwargs)`). -/
def Cache.async_memoize (c : Cache String) (func : Except PyErr PyVal)
    (argrepr : String) (now : Int) : Except PyErr (PyVal × Cache String) :=
  let key := sha256hex argrepr
  match c.get key now with
  | Except.error e => Except.error e
  | Except.ok (result?, c1) =>
    if pyTruthy result? then
      Except.ok (result?.getD (PyVal.pyint 0), c1)
    else
      match func with
      | Except.error e => Except.error e
      | Except.ok r =>
        match c1.put key r now with
        | Except.error e => Except.error e
        | Except.ok c2 => Except.ok (r, c2)

/-! Helper lemmas about the ordered-dict and counter primitives. -/

theorem odGet_odSet_self (l : List (K × V)) (k : K) (v : V) :
    odGet (odSet l k v) k = some v := by
  induction l with
  | nil => simp [odSet, odGet]
  | cons p l ih =>
    by_cases h : p.1 = k
    · simp [odSet, h, odGet]
    · simp [odSet, h, odGet, ih]

theorem odSet_length_le (l : List (K × V)) (k : K) (v : V) :
    (odSet l k v).length ≤ l.length + 1 := by
  induction l with
  | nil => simp [odSet]
  | cons p l ih =>
    by_cases h : p.1 = k <;> simp [odSet, h] <;> omega

theorem odGet_eq_none_iff (l : List (K × V)) (k : K) :
    odGet l k = none ↔ k ∉ odKeys l := by
  induction l with
  | nil => simp [odGet, odKeys]
  | cons p l ih =>
    by_cases h : p.1 = k
    · simp [odGet, odKeys, h]
    · simp [odGet, odKeys, h, ih]
      intro hk
      exact fun hkp => h hkp.symm

theorem odSet_of_fresh (l : List (K × V)) (k : K) (v : V) (h : odGet l k = none) :
    odSet l k v = l ++ [(k, v)] := by
  induction l with
  | nil => simp [odSet]
  | cons p l ih =>
    rw [odGet] at h
    by_cases hp : p.1 = k
    · rw [if_pos hp] at h; exact absurd h (by simp)
    · rw [if_neg hp] at h
      simp [odSet, hp, ih h]

theorem mem_odKeys_cons (p : K × V) (l : List (K × V)) (k' : K) :
    k' ∈ odKeys (p :: l) ↔ k' = p.1 ∨ k' ∈ odKeys l := by
  simp [odKeys]

theorem odKeys_odSet_of_mem (l : List (K × V)) (k : K) (v : V)
    (h : odGet l k ≠ none) : odKeys (odSet l k v) = odKeys l := by
  induction l with
  | nil => simp [odGet] at h
  | cons p l ih =>
    by_cases hp : p.1 = k
    · simp [odSet, hp, odKeys]
    · rw [odGet, if_neg hp] at h
      simp only [odSet, if_neg hp, odKeys, List.map_cons]
      exact congrArg (List.cons p.1) (ih h)

theorem mem_odKeys_odSet (l : List (K × V)) (k k' : K) (v : V)
    (h : k' ∈ odKeys l ∨ k' = k) : k' ∈ odKeys (odSet l k v) := by
  induction l with
  | nil =>
    rcases h with h | h
    · simp [odKeys] at h
    · simp [odSet, odKeys, h]
  | cons p l ih =>
    by_cases hp : p.1 = k
    · simp only [odSet, if_pos hp, odKeys, List.map_cons]
      rcases h with h | h
      · simp only [odKeys, List.map_cons, List.mem_cons] at h
        rcases h with h | h
        · subst h; simp [hp]
        · simp [h]
      · simp [h]
    · simp only [odSet, if_neg hp, odKeys, List.map_cons, List.mem_cons]
      rcases h with h | h
      · simp only [odKeys, List.map_cons, List.mem_cons] at h
        rcases h with h | h
        · exact Or.inl h
        · exact Or.inr (ih (Or.inl h))
      · exact Or.inr (ih (Or.inr h))

theorem mem_odKeys_odDel (l : List (K × V)) (k k' : K) :
    k' ∈ odKeys (odDel l k) ↔ k' ∈ odKeys l ∧ k' ≠ k := by
  induction l with
  | nil => simp [odDel, odKeys]
  | cons p l ih =>
    by_cases hp : p.1 = k
    · rw [odDel, if_pos hp, ih, mem_odKeys_cons]
      subst hp
      constructor
      · rintro ⟨h1, h2⟩; exact ⟨Or.inr h1, h2⟩
      · rintro ⟨h1 | h1, h2⟩
        · exact absurd h1 h2
        · exact ⟨h1, h2⟩
    · rw [odDel, if_neg hp, mem_odKeys_cons, mem_odKeys_cons, ih]
      constructor
      · rintro (h | ⟨h1, h2⟩)
        · exact ⟨Or.inl h, fun hk => hp (h ▸ hk)⟩
        · exact ⟨Or.inr h1, h2⟩
      · rintro ⟨h1 | h1, h2⟩
        · exact Or.inl h1
        · exact Or.inr ⟨h1, h2⟩

theorem odDel_length_le (l : List (K × V)) (k : K) :
    (odDel l k).length ≤ l.length := by
  induction l with
  | nil => simp [odDel]
  | cons p l ih =>
    by_cases hp : p.1 = k <;> simp [odDel, hp] <;> omega

theorem odDel_length_lt (l : List (K × V)) (k : K) (h : k ∈ odKeys l) :
    (odDel l k).length < l.length := by
  induction l with
  | nil => simp [odKeys] at h
  | cons p l ih =>
    by_cases hp : p.1 = k
    · have := odDel_length_le l k
      simp [odDel, hp]
      omega
    · have hk : k ∈ odKeys l := by
        simp only [odKeys, List.map_cons, List.mem_cons] at h
        rcases h with h | h
        · exact absurd h.symm hp
        · exact h
      have := ih hk
      simp [odDel, hp]
      omega

theorem odDel_of_fresh (l : List (K × V)) (k : K) (h : k ∉ odKeys l) :
    odDel l k = l := by
  induction l with
  | nil => simp [odDel]
  | cons p l ih =>
    simp only [odKeys, List.map_cons, List.mem_cons, not_or] at h
    rw [odDel, if_neg (fun hp => h.1 hp.symm), ih (by simpa [odKeys] using h.2)]

theorem odDel_length_of_nodup (l : List (K × V)) (k : K)
    (hnd : (odKeys l).Nodup) (h : k ∈ odKeys l) :
    (odDel l k).length + 1 = l.length := by
  induction l with
  | nil => simp [odKeys] at h
  | cons p l ih =>
    simp only [odKeys, List.map_cons, List.nodup_cons] at hnd
    by_cases hp : p.1 = k
    · subst hp
      rw [odDel, if_pos rfl, odDel_of_fresh l p.1 hnd.1]
      simp
    · have hk : k ∈ odKeys l := by
        simp only [odKeys, List.map_cons, List.mem_cons] at h
        rcases h with h | h
        · exact absurd h.symm hp
        · exact h
      rw [odDel, if_neg hp]
      simp only [List.length_cons]
      rw [← ih hnd.2 hk]

theorem odDel_append (l1 l2 : List (K × V)) (k : K) :
    odDel (l1 ++ l2) k = odDel l1 k ++ odDel l2 k := by
  induction l1 with
  | nil => simp [odDel]
  | cons p l1 ih =>
    by_cases hp : p.1 = k <;> simp [odDel, hp, ih]

theorem odDel_sublist (l : List (K × V)) (k : K) : (odDel l k).Sublist l := by
  induction l with
  | nil => simp [odDel]
  | cons p l ih =>
    by_cases hp : p.1 = k
    · rw [odDel, if_pos hp]
      exact ih.cons p
    · rw [odDel, if_neg hp]
      exact ih.cons₂ p

theorem odKeys_odDel_nodup (l : List (K × V)) (k : K)
    (h : (odKeys l).Nodup) : (odKeys (odDel l k)).Nodup :=
  ((odDel_sublist l k).map Prod.fst).nodup h

theorem odKeys_append (l1 l2 : List (K × V)) :
    odKeys (l1 ++ l2) = odKeys l1 ++ odKeys l2 := by
  simp [odKeys]

theorem odKeys_odSet_nodup (l : List (K × V)) (k : K) (v : V)
    (h : (odKeys l).Nodup) : (odKeys (odSet l k v)).Nodup := by
  by_cases hk : odGet l k = none
  · rw [odSet_of_fresh l k v hk, odKeys_append]
    have hkn : k ∉ odKeys l := (odGet_eq_none_iff l k).1 hk
    have hd : (odKeys l).Disjoint (odKeys [(k, v)]) := by
      intro a ha ha'
      simp [odKeys] at ha'
      subst ha'
      exact hkn ha
    rw [List.nodup_append]
    exact ⟨h, by simp [odKeys], hd⟩
  · rw [odKeys_odSet_of_mem l k v hk]
    exact h

theorem cntGet_cntInc_self (u : List (K × Nat)) (k : K) :
    cntGet (cntInc u k) k = cntGet u k + 1 := by
  induction u with
  | nil => simp [cntInc, cntGet, odGet]
  | cons p u ih =>
    by_cases hp : p.1 = k
    · simp [cntInc, hp, cntGet, odGet]
    · simp only [cntInc, if_neg hp, cntGet, odGet]
      exact ih

theorem cntInc_of_fresh (u : List (K × Nat)) (k : K) (h : odGet u k = none) :
    cntInc u k = u ++ [(k, 1)] := by
  induction u with
  | nil => simp [cntInc]
  | cons p u ih =>
    rw [odGet] at h
    by_cases hp : p.1 = k
    · rw [if_pos hp] at h; exact absurd h (by simp)
    · rw [if_neg hp] at h
      simp [cntInc, hp, ih h]

theorem cntInc_ne_nil (u : List (K × Nat)) (k : K) : cntInc u k ≠ [] := by
  cases u with
  | nil => simp [cntInc]
  | cons p u =>
    by_cases hp : p.1 = k <;> simp [cntInc, hp]

theorem mem_odKeys_cntInc (u : List (K × Nat)) (k k' : K)
    (h : k' ∈ odKeys (cntInc u k)) : k' ∈ odKeys u ∨ k' = k := by
  induction u with
  | nil =>
    rw [cntInc] at h
    rcases (mem_odKeys_cons (k, 1) [] k').1 h with h | h
    · exact Or.inr h
    · simp [odKeys] at h
  | cons p u ih =>
    by_cases hp : p.1 = k
    · rw [cntInc, if_pos hp] at h
      rcases (mem_odKeys_cons (p.1, p.2 + 1) u k').1 h with h | h
      · exact Or.inl ((mem_odKeys_cons p u k').2 (Or.inl h))
      · exact Or.inl ((mem_odKeys_cons p u k').2 (Or.inr h))
    · rw [cntInc, if_neg hp] at h
      rcases (mem_odKeys_cons p (cntInc u k) k').1 h with h | h
      · exact Or.inl ((mem_odKeys_cons p u k').2 (Or.inl h))
      · rcases ih h with h | h
        · exact Or.inl ((mem_odKeys_cons p u k').2 (Or.inr h))
        · exact Or.inr h

/-! Characterization of `lastMin` and `leastCommon`: the chosen entry is a
member, its count is minimal, and every entry strictly after it in the list
has a strictly larger count (the tie-break picks the latest tied entry). -/

theorem lastMin_mem (x : K × Nat) (l : List (K × Nat)) :
    lastMin x l ∈ x :: l := by
  induction l generalizing x with
  | nil => simp [lastMin]
  | cons p l ih =>
    rw [lastMin]
    by_cases hpx : p.2 ≤ x.2
    · rw [if_pos hpx]
      rcases List.mem_cons.1 (ih p) with h | h
      · rw [h]; simp
      · simp [h]
    · rw [if_neg hpx]
      rcases List.mem_cons.1 (ih x) with h | h
      · rw [h]; simp
      · simp [h]

theorem lastMin_le (l : List (K × Nat)) :
    ∀ (x : K × Nat), ∀ q ∈ x :: l, (lastMin x l).2 ≤ q.2 := by
  induction l with
  | nil =>
    intro x q hq
    simp only [List.mem_cons, List.not_mem_nil, or_false] at hq
    subst hq
    simp [lastMin]
  | cons p l ih =>
    intro x q hq
    rw [lastMin]
    by_cases hpx : p.2 ≤ x.2
    · rw [if_pos hpx]
      rcases List.mem_cons.1 hq with h | h
      · subst h
        have h1 := ih p p (by simp)
        omega
      · exact ih p q h
    · rw [if_neg hpx]
      rcases List.mem_cons.1 hq with h | h
      · subst h
        exact ih q q (by simp)
      · rcases List.mem_cons.1 h with h | h
        · subst h
          have h1 := ih x x (by simp)
          omega
        · exact ih x q (by simp [h])

theorem lastMin_last (l : List (K × Nat)) :
    ∀ (x : K × Nat), ∃ l1 l2, x :: l = l1 ++ lastMin x l :: l2 ∧
      ∀ q ∈ l2, (lastMin x l).2 < q.2 := by
  induction l with
  | nil => exact fun x => ⟨[], [], by simp [lastMin], by simp⟩
  | cons p l ih =>
    intro x
    by_cases hpx : p.2 ≤ x.2
    · rcases ih p with ⟨l1, l2, heq, hlt⟩
      refine ⟨x :: l1, l2, ?_, ?_⟩
      · rw [lastMin, if_pos hpx, List.cons_append, ← heq]
      · rw [lastMin, if_pos hpx]
        exact hlt
    · rcases ih x with ⟨l1, l2, heq, hlt⟩
      cases l1 with
      | nil =>
        rw [List.nil_append, List.cons.injEq] at heq
        obtain ⟨hx, hl⟩ := heq
        refine ⟨[], p :: l, ?_, ?_⟩
        · rw [lastMin, if_neg hpx, ← hx, List.nil_append]
        · intro q hq
          rw [lastMin, if_neg hpx, ← hx]
          rcases List.mem_cons.1 hq with h | h
          · subst h; omega
          · have hq2 := hlt q (hl ▸ h)
            rw [← hx] at hq2
            exact hq2
      | cons y l1 =>
        rw [List.cons_append, List.cons.injEq] at heq
        obtain ⟨hy, htail⟩ := heq
        refine ⟨x :: p :: l1, l2, ?_, ?_⟩
        · rw [lastMin, if_neg hpx, List.cons_append, List.cons_append, ← htail]
        · rw [lastMin, if_neg hpx]
          exact hlt

theorem leastCommon_eq_none_iff (l : List (K × Nat)) :
    leastCommon l = none ↔ l = [] := by
  cases l <;> simp [leastCommon]

theorem leastCommon_spec (l : List (K × Nat)) (h : l ≠ []) :
    ∃ p, leastCommon l = some p ∧ p ∈ l ∧ (∀ q ∈ l, p.2 ≤ q.2) ∧
      ∃ l1 l2, l = l1 ++ p :: l2 ∧ ∀ q ∈ l2, p.2 < q.2 := by
  cases l with
  | nil => exact absurd rfl h
  | cons x l =>
    exact ⟨lastMin x l, rfl, lastMin_mem x l, lastMin_le l x, lastMin_last l x⟩

/-! Storage-layer lemmas: the shape of `put` in each of its branches, the
well-formedness invariant of reachable storages, and size bounds. -/

theorem storage_get_fst (s : CacheStorage K V) (k : K) :
    (s.get k).1 = odGet s.data k := by
  rw [CacheStorage.get]
  split <;> rfl

theorem storage_get_data (s : CacheStorage K V) (k : K) :
    (s.get k).2.data = s.data := by
  rw [CacheStorage.get]
  split <;> rfl

theorem put_capacity (s : CacheStorage K V) (k : K) (v : V) :
    (s.put k v).capacity = s.capacity := by
  simp only [CacheStorage.put]
  repeat' split
  all_goals rfl

theorem put_policy (s : CacheStorage K V) (k : K) (v : V) :
    (s.put k v).eviction_policy = s.eviction_policy := by
  simp only [CacheStorage.put]
  repeat' split
  all_goals rfl

theorem put_of_no_overflow (s : CacheStorage K V) (k : K) (v : V)
    (h : ¬ ((odSet s.data k v).length : Int) > s.capacity) :
    s.put k v =
      { s with
        data := odSet s.data k v,
        usage := if s.eviction_policy = "lfu" then s.usage.map (fun u => cntInc u k)
                 else s.usage } := by
  simp only [CacheStorage.put]
  rw [if_neg h]

theorem put_overflow_other (s : CacheStorage K V) (k : K) (v : V)
    (hpol : s.eviction_policy ≠ "lfu")
    (hover : ((odSet s.data k v).length : Int) > s.capacity) :
    s.put k v =
      { s with
        data := (odSet s.data k v).tail,
        usage := s.usage } := by
  simp only [CacheStorage.put]
  rw [if_pos hover, if_neg hpol, if_neg hpol]

theorem put_overflow_lfu (s : CacheStorage K V) (k : K) (v : V)
    (u : List (K × Nat)) (hpol : s.eviction_policy = "lfu") (hu : s.usage = some u)
    (hover : ((odSet s.data k v).length : Int) > s.capacity) :
    ∃ lu, leastCommon (cntInc u k) = some lu ∧
      s.put k v =
        { s with
          data := odDel (odSet s.data k v) lu.1,
          usage := some (odDel (cntInc u k) lu.1) } := by
  obtain ⟨p, hp, -, -, -⟩ := leastCommon_spec (cntInc u k) (cntInc_ne_nil u k)
  refine ⟨p, hp, ?_⟩
  simp only [CacheStorage.put, hpol, hu, if_pos hover, eq_self_iff_true, if_true,
    Option.map_some', Option.getD_some, hp]

theorem odSet_length_pos (l : List (K × V)) (k : K) (v : V) :
    0 < (odSet l k v).length := by
  cases l with
  | nil => simp [odSet]
  | cons p l => by_cases hp : p.1 = k <;> simp [odSet, hp]

/-- Well-formedness of a storage state: the dict keys are unique, and under
the `"lfu"` policy the usage counter exists and its keys are resident. -/
def WF (s : CacheStorage K V) : Prop :=
  (odKeys s.data).Nodup ∧
  (s.eviction_policy = "lfu" →
    ∃ u, s.usage = some u ∧ ∀ k ∈ odKeys u, k ∈ odKeys s.data)

theorem WF_init (c : Int) (p : String) :
    WF (CacheStorage.init (K := K) (V := V) c p) := by
  constructor
  · simp [CacheStorage.init, odKeys]
  · intro hp
    simp only [CacheStorage.init] at hp
    refine ⟨[], ?_, by simp [odKeys]⟩
    simp [CacheStorage.init, hp]

theorem leastCommon_key_mem_data (s : CacheStorage K V) (k : K) (v : V)
    (u : List (K × Nat)) (lu : K × Nat)
    (husub : ∀ k' ∈ odKeys u, k' ∈ odKeys s.data)
    (hlu : leastCommon (cntInc u k) = some lu) :
    lu.1 ∈ odKeys (odSet s.data k v) := by
  obtain ⟨p, hp, hpmem, -, -⟩ := leastCommon_spec (cntInc u k) (cntInc_ne_nil u k)
  rw [hp] at hlu
  injection hlu with h
  subst h
  have hk : p.1 ∈ odKeys (cntInc u k) := List.mem_map_of_mem Prod.fst hpmem
  rcases mem_odKeys_cntInc u k p.1 hk with h | h
  · exact mem_odKeys_odSet s.data k p.1 v (Or.inl (husub _ h))
  · exact mem_odKeys_odSet s.data k p.1 v (Or.inr h)

theorem WF_put (s : CacheStorage K V) (k : K) (v : V) (hwf : WF s) :
    WF (s.put k v) := by
  by_cases hover : ((odSet s.data k v).length : Int) > s.capacity
  · by_cases hpol : s.eviction_policy = "lfu"
    · obtain ⟨u, hu, husub⟩ := hwf.2 hpol
      obtain ⟨lu, hlu, hput⟩ := put_overflow_lfu s k v u hpol hu hover
      rw [hput]
      constructor
      · exact odKeys_odDel_nodup _ _ (odKeys_odSet_nodup s.data k v hwf.1)
      · intro _
        refine ⟨odDel (cntInc u k) lu.1, rfl, ?_⟩
        intro k' hk'
        rw [mem_odKeys_odDel] at hk' ⊢
        obtain ⟨hk1, hk2⟩ := hk'
        refine ⟨?_, hk2⟩
        rcases mem_odKeys_cntInc u k k' hk1 with h | h
        · exact mem_odKeys_odSet s.data k k' v (Or.inl (husub _ h))
        · exact mem_odKeys_odSet s.data k k' v (Or.inr h)
    · rw [put_overflow_other s k v hpol hover]
      constructor
      · have h1 := odKeys_odSet_nodup s.data k v hwf.1
        have h2 : odKeys ((odSet s.data k v).tail) = (odKeys (odSet s.data k v)).tail := by
          simp [odKeys, List.map_tail]
        rw [h2]
        exact (List.tail_sublist _).nodup h1
      · intro hp
        exact absurd hp hpol
  · rw [put_of_no_overflow s k v hover]
    constructor
    · exact odKeys_odSet_nodup s.data k v hwf.1
    · intro hp
      obtain ⟨u, hu, husub⟩ := hwf.2 hp
      rw [if_pos hp, hu]
      refine ⟨cntInc u k, rfl, ?_⟩
      intro k' hk'
      rcases mem_odKeys_cntInc u k k' hk' with h | h
      · exact mem_odKeys_odSet s.data k k' v (Or.inl (husub _ h))
      · exact mem_odKeys_odSet s.data k k' v (Or.inr h)

theorem put_size_le (s : CacheStorage K V) (k : K) (v : V) (hwf : WF s)
    (hc : 0 ≤ s.capacity) (hs : (s.data.length : Int) ≤ s.capacity) :
    ((s.put k v).data.length : Int) ≤ s.capacity := by
  have hlen := odSet_length_le s.data k v
  by_cases hover : ((odSet s.data k v).length : Int) > s.capacity
  · by_cases hpol : s.eviction_policy = "lfu"
    · obtain ⟨u, hu, husub⟩ := hwf.2 hpol
      obtain ⟨lu, hlu, hput⟩ := put_overflow_lfu s k v u hpol hu hover
      rw [hput]
      have hmem := leastCommon_key_mem_data s k v u lu husub hlu
      have hlt := odDel_length_lt (odSet s.data k v) lu.1 hmem
      simp only [] at *
      omega
    · rw [put_overflow_other s k v hpol hover]
      have hpos := odSet_length_pos s.data k v
      simp only [List.length_tail]
      omega
  · rw [put_of_no_overflow s k v hover]
    simp only []
    omega

theorem put_evict_exact (s : CacheStorage K V) (k : K) (v : V) (hwf : WF s)
    (hover : ((odSet s.data k v).length : Int) > s.capacity) :
    (s.put k v).data.length + 1 = (odSet s.data k v).length := by
  by_cases hpol : s.eviction_policy = "lfu"
  · obtain ⟨u, hu, husub⟩ := hwf.2 hpol
    obtain ⟨lu, hlu, hput⟩ := put_overflow_lfu s k v u hpol hu hover
    rw [hput]
    exact odDel_length_of_nodup (odSet s.data k v) lu.1
      (odKeys_odSet_nodup s.data k v hwf.1)
      (leastCommon_key_mem_data s k v u lu husub hlu)
  · rw [put_overflow_other s k v hpol hover]
    have hpos := odSet_length_pos s.data k v
    simp only [List.length_tail]
    omega

theorem putSeq_append (s : CacheStorage K V) (l1 l2 : List (K × V)) :
    putSeq s (l1 ++ l2) = putSeq (putSeq s l1) l2 := by
  induction l1 generalizing s with
  | nil => rfl
  | cons kv l1 ih => rw [List.cons_append, putSeq, putSeq, ih]

theorem putSeq_inv (ops : List (K × V)) : ∀ s : CacheStorage K V,
    WF s → 0 ≤ s.capacity → (s.data.length : Int) ≤ s.capacity →
    WF (putSeq s ops) ∧ (putSeq s ops).capacity = s.capacity ∧
      (putSeq s ops).eviction_policy = s.eviction_policy ∧
      ((putSeq s ops).data.length : Int) ≤ s.capacity := by
  induction ops with
  | nil =>
    intro s h1 h2 h3
    exact ⟨h1, rfl, rfl, h3⟩
  | cons kv ops ih =>
    intro s h1 h2 h3
    rw [putSeq]
    have hc := put_capacity s kv.1 kv.2
    have hp := put_policy s kv.1 kv.2
    have h1' := WF_put s kv.1 kv.2 h1
    have h3' := put_size_le s kv.1 kv.2 h1 h2 h3
    obtain ⟨a, b, c, d⟩ := ih (s.put kv.1 kv.2) h1' (by rw [hc]; exact h2)
      (by rw [hc]; exact h3')
    refine ⟨a, b.trans hc, c.trans hp, ?_⟩
    rw [hc] at d
    exact d

/-- Filling a storage with fresh distinct keys within capacity just appends
them, under any non-LFU policy. -/
theorem putSeq_fill (pairs : List (K × V)) : ∀ s : CacheStorage K V,
    s.eviction_policy ≠ "lfu" →
    ((s.data.length + pairs.length : Nat) : Int) ≤ s.capacity →
    (∀ p ∈ pairs, p.1 ∉ odKeys s.data) →
    (odKeys pairs).Nodup →
    (putSeq s pairs).data = s.data ++ pairs ∧
      (putSeq s pairs).capacity = s.capacity ∧
      (putSeq s pairs).eviction_policy = s.eviction_policy := by
  induction pairs with
  | nil =>
    intro s _ _ _ _
    exact ⟨by simp [putSeq], rfl, rfl⟩
  | cons kv pairs ih =>
    intro s hpol hcap hfresh hnd
    rw [putSeq]
    have hndc : kv.1 ∉ odKeys pairs ∧ (odKeys pairs).Nodup := by
      simpa [odKeys, List.nodup_cons] using hnd
    have hfr : odGet s.data kv.1 = none :=
      (odGet_eq_none_iff s.data kv.1).2 (hfresh kv (by simp))
    have hset : odSet s.data kv.1 kv.2 = s.data ++ [kv] := by
      have h := odSet_of_fresh s.data kv.1 kv.2 hfr
      simpa using h
    have hnover : ¬ ((odSet s.data kv.1 kv.2).length : Int) > s.capacity := by
      rw [hset]
      simp only [List.length_append, List.length_cons, List.length_nil, List.length_cons] at hcap ⊢
      push_cast at hcap ⊢
      omega
    rw [put_of_no_overflow s kv.1 kv.2 hnover]
    obtain ⟨h1, h2, h3⟩ := ih
      { s with
        data := odSet s.data kv.1 kv.2,
        usage := if s.eviction_policy = "lfu" then s.usage.map (fun u => cntInc u kv.1)
                 else s.usage }
      hpol
      (by
        show ((odSet s.data kv.1 kv.2).length + pairs.length : Int) ≤ s.capacity
        rw [hset]
        simp only [List.length_append, List.length_cons, List.length_nil] at hcap ⊢
        push_cast at hcap ⊢
        omega)
      (by
        intro p hp
        show p.1 ∉ odKeys (odSet s.data kv.1 kv.2)
        rw [hset, odKeys_append]
        intro hmem
        rcases List.mem_append.1 hmem with h | h
        · exact hfresh p (by simp [hp]) h
        · have : p.1 = kv.1 := by simpa [odKeys] using h
          exact hndc.1 (this ▸ List.mem_map_of_mem Prod.fst hp)
      )
      hndc.2
    refine ⟨?_, h2, h3⟩
    rw [h1]
    show odSet s.data kv.1 kv.2 ++ pairs = s.data ++ kv :: pairs
    rw [hset, List.append_assoc, List.singleton_append]

/-- C1: for every storage constructed with a (nonnegative) capacity `c` and
every sequence of `put` operations, the number of stored entries satisfies
`size ≤ c` immediately after each `put` returns (every prefix of a sequence is
itself such a sequence, so this covers every intermediate state), and whenever
an insertion would exceed the capacity, exactly one entry is evicted
synchronously inside that same `put` — the dict after the `put` is one entry
shorter than the dict right after the insertion, never deferred to later. -/
theorem storage_capacity_invariant (K V : Type) [DecidableEq K]
    (c : Int) (p : String) (hc : 0 ≤ c) :
    (∀ ops : List (K × V),
      ((putSeq (CacheStorage.init c p) ops).data.length : Int) ≤ c)
    ∧ ∀ (ops : List (K × V)) (k : K) (v : V),
      ((odSet (putSeq (CacheStorage.init c p) ops).data k v).length : Int) > c →
      ((putSeq (CacheStorage.init c p) ops).put k v).data.length + 1
        = (odSet (putSeq (CacheStorage.init c p) ops).data k v).length := by
  have hstart : ((CacheStorage.init c p : CacheStorage K V).data.length : Int)
      ≤ (CacheStorage.init c p : CacheStorage K V).capacity := by
    simp [CacheStorage.init]
    exact hc
  constructor
  · intro ops
    exact (putSeq_inv ops (CacheStorage.init c p) (WF_init c p) hc hstart).2.2.2
  · intro ops k v hover
    obtain ⟨hwf, hcap, -, -⟩ :=
      putSeq_inv ops (CacheStorage.init c p) (WF_init c p) hc hstart
    refine put_evict_exact _ k v hwf ?_
    rw [hcap]
    exact hover

/-- Witness for `storage_capacity_invariant`: capacity 2, LRU, a sequence of
three puts stays within the bound. -/
theorem storage_capacity_invariant_witness :
    (0 : Int) ≤ 2 ∧
      ((putSeq (CacheStorage.init 2 "lru" : CacheStorage Nat Nat)
        [(1, 10), (2, 20), (3, 30)]).data.length : Int) ≤ 2 :=
  ⟨by decide,
    (storage_capacity_invariant Nat Nat 2 "lru" (by decide)).1 [(1, 10), (2, 20), (3, 30)]⟩

/-- C3 counterexample: capacity 2, LRU; after `put 1`, `put 2`, overwriting
`put 1` and `put 3`, the claimed recency reset on overwrite predicts key 2 is
evicted and key 1 survives.  The code assigns into the `OrderedDict` without
moving the key, so key 1 is still oldest and is evicted: key 1 is gone and
key 2 survives. -/
theorem lru_overwrite_keeps_position_cex :
    odGet (((((CacheStorage.init 2 "lru" : CacheStorage Nat Nat).put 1 10).put 2
      20).put 1 11).put 3 30).data 1 = none
    ∧ odGet (((((CacheStorage.init 2 "lru" : CacheStorage Nat Nat).put 1 10).put 2
      20).put 1 11).put 3 30).data 2 = some 20 := by
  decide

/-- C3 amended: under the LRU (default) policy eviction is FIFO in first
insertion order: `get` never changes the dict (access does not refresh
recency), overwriting an existing key keeps its dict position (a re-written
key is not refreshed either), and inserting `capacity+1` distinct fresh keys
evicts exactly the first-inserted key, leaving the tail. -/
theorem lru_fifo_eviction (K V : Type) [DecidableEq K] :
    (∀ (s : CacheStorage K V) (k : K), ((s.get k).2).data = s.data)
    ∧ (∀ (l : List (K × V)) (k : K) (v : V),
        odGet l k ≠ none → odKeys (odSet l k v) = odKeys l)
    ∧ ∀ (n : Nat) (pairs : List (K × V)),
        (odKeys pairs).Nodup → pairs.length = n + 1 →
        (putSeq (CacheStorage.init (n : Int) "lru") pairs).data = pairs.tail := by
  refine ⟨storage_get_data, odKeys_odSet_of_mem, ?_⟩
  intro n pairs hnd hlen
  have hne : pairs ≠ [] := by
    intro h
    rw [h] at hlen
    simp at hlen
  obtain ⟨front, last, hfl⟩ : ∃ front last, pairs = front ++ [last] :=
    ⟨pairs.dropLast, pairs.getLast hne, (List.dropLast_append_getLast hne).symm⟩
  subst hfl
  rw [putSeq_append]
  have hndf : (odKeys front).Nodup ∧ last.1 ∉ odKeys front := by
    rw [odKeys_append, List.nodup_append] at hnd
    obtain ⟨h1, -, h3⟩ := hnd
    exact ⟨h1, fun hm => h3 hm (by simp [odKeys])⟩
  have hflen : front.length = n := by
    rw [List.length_append] at hlen
    simp at hlen
    omega
  obtain ⟨hdata, hcap, hpol⟩ := putSeq_fill front (CacheStorage.init (n : Int) "lru")
    (by intro h; simp [CacheStorage.init] at h)
    (by simp [CacheStorage.init, hflen])
    (by simp [CacheStorage.init, odKeys])
    hndf.1
  have hdata1 : (putSeq (CacheStorage.init (n : Int) "lru") front).data = front := by
    rw [hdata]
    simp [CacheStorage.init]
  have hpol1 : (putSeq (CacheStorage.init (n : Int) "lru") front).eviction_policy ≠ "lfu" := by
    rw [hpol]
    intro h
    simp [CacheStorage.init] at h
  have hfr : odGet (putSeq (CacheStorage.init (n : Int) "lru") front).data last.1 = none := by
    rw [odGet_eq_none_iff, hdata1]
    exact hndf.2
  have hset : odSet (putSeq (CacheStorage.init (n : Int) "lru") front).data last.1 last.2
      = front ++ [last] := by
    rw [hdata1]
    have hfr2 : odGet front last.1 = none := (odGet_eq_none_iff front last.1).2 hndf.2
    have h := odSet_of_fresh front last.1 last.2 hfr2
    simpa using h
  have hover : ((odSet (putSeq (CacheStorage.init (n : Int) "lru") front).data last.1
      last.2).length : Int) > (putSeq (CacheStorage.init (n : Int) "lru") front).capacity := by
    rw [hset, hcap]
    show ((front ++ [last]).length : Int) > (CacheStorage.init (n : Int) "lru" : CacheStorage K V).capacity
    simp [CacheStorage.init, hflen]
  rw [putSeq, putSeq, put_overflow_other _ last.1 last.2 hpol1 hover]
  show (odSet (putSeq (CacheStorage.init (n : Int) "lru") front).data last.1 last.2).tail
      = (front ++ [last]).tail
  rw [hset]

/-- Witness for `lru_fifo_eviction`: three distinct keys into capacity 2 leave
exactly the last two. -/
theorem lru_fifo_eviction_witness :
    (odKeys [((1 : Nat), (10 : Nat)), (2, 20), (3, 30)]).Nodup ∧
      (putSeq (CacheStorage.init ((2 : Nat) : Int) "lru")
        [((1 : Nat), (10 : Nat)), (2, 20), (3, 30)]).data
        = [((1 : Nat), (10 : Nat)), (2, 20), (3, 30)].tail :=
  ⟨by decide,
    (lru_fifo_eviction Nat Nat).2.2 2 [(1, 10), (2, 20), (3, 30)] (by decide) (by decide)⟩

/-- C4 counterexample: capacity 1, LFU; after `put 1` then `put 2` both keys
are tied at usage count 1.  The claimed oldest-insertion-wins tie-break would
evict key 1; `most_common()[:-2:-1]` takes the LAST entry of the stable
descending sort, the newest tied entry, so the code evicts key 2 instead. -/
theorem lfu_tie_evicts_newest_cex :
    odGet (((CacheStorage.init 1 "lfu" : CacheStorage Nat Nat).put 1 10).put 2
      20).data 2 = none
    ∧ odGet (((CacheStorage.init 1 "lfu" : CacheStorage Nat Nat).put 1 10).put 2
      20).data 1 = some 10 := by
  decide

/-- C4 amended: under LFU, a successful read increments the key's usage
counter, and a capacity-exceeding put evicts a key whose usage count is
minimal — but ties among equal counters are broken towards the NEWEST entry in
the counter's insertion order (every entry after the evicted one in the
counter is strictly larger), not the oldest: the evicted entry is the last
minimal entry of `most_common()`'s stable descending sort. -/
theorem lfu_evicts_minimal_newest (K V : Type) [DecidableEq K] :
    (∀ (u : List (K × Nat)) (k : K), cntGet (cntInc u k) k = cntGet u k + 1)
    ∧ (∀ (s : CacheStorage K V) (u : List (K × Nat)) (k : K),
        s.eviction_policy = "lfu" → s.usage = some u → odGet s.data k ≠ none →
        (s.get k).2.usage = some (cntInc u k))
    ∧ (∀ (u : List (K × Nat)) (q : K × Nat), leastCommon u = some q →
        q ∈ u ∧ (∀ r ∈ u, q.2 ≤ r.2) ∧
        ∃ l1 l2, u = l1 ++ q :: l2 ∧ ∀ r ∈ l2, q.2 < r.2)
    ∧ ∀ (s : CacheStorage K V) (u : List (K × Nat)) (k : K) (v : V) (q : K × Nat),
        s.eviction_policy = "lfu" → s.usage = some u →
        ((odSet s.data k v).length : Int) > s.capacity →
        leastCommon (cntInc u k) = some q →
        (s.put k v).data = odDel (odSet s.data k v) q.1 := by
  refine ⟨cntGet_cntInc_self, ?_, ?_, ?_⟩
  · intro s u k hpol hu hne
    rw [CacheStorage.get, if_pos ⟨hpol, Option.isSome_iff_ne_none.2 hne⟩]
    simp [hu]
  · intro u q hq
    obtain ⟨r, hr, hrmem, hrmin, hrlast⟩ := leastCommon_spec u
      (by intro h; rw [h] at hq; simp [leastCommon] at hq)
    rw [hr] at hq
    injection hq with hq
    subst hq
    exact ⟨hrmem, hrmin, hrlast⟩
  · intro s u k v q hpol hu hover hq
    obtain ⟨lu, hlu, hput⟩ := put_overflow_lfu s k v u hpol hu hover
    rw [hlu] at hq
    injection hq with hq
    subst hq
    rw [hput]

/-- Witness for `lfu_evicts_minimal_newest`: capacity 1, key 1 resident with
count 1; putting key 2 triggers eviction of the least-common entry `(2, 1)`. -/
theorem lfu_evicts_minimal_newest_witness :
    leastCommon (cntInc [((1 : Nat), (1 : Nat))] 2) = some (2, 1) ∧
      (((CacheStorage.init 1 "lfu" : CacheStorage Nat Nat).put 1 10).put 2 20).data
        = odDel (odSet ((CacheStorage.init 1 "lfu" : CacheStorage Nat Nat).put 1
          10).data 2 20) 2 :=
  ⟨by decide,
    (lfu_evicts_minimal_newest Nat Nat).2.2.2 ((CacheStorage.init 1 "lfu").put 1 10)
      [(1, 1)] 2 20 (2, 1) (by decide) (by decide) (by decide) (by decide)⟩

/-- C5 counterexample: `CacheStorage.__init__` performs no validation at all,
so constructing with capacity 0 and the unrecognized policy name "bogus"
produces a storage object carrying exactly that invalid configuration, and a
subsequent `put` runs without error (the unknown policy name falls into the
LRU `else` branch and the just-inserted entry is immediately evicted). -/
theorem construction_no_error_cex :
    (CacheStorage.init 0 "bogus" : CacheStorage Nat Nat).capacity = 0
    ∧ (CacheStorage.init 0 "bogus" : CacheStorage Nat Nat).eviction_policy = "bogus"
    ∧ ((CacheStorage.init 0 "bogus" : CacheStorage Nat Nat).put 1 10).data = [] := by
  decide

/-- C5 amended: construction is total and unvalidated — any capacity
(including ≤ 0) and any policy string are accepted verbatim, giving an empty
storage with exactly the requested configuration; no error is ever raised,
and any policy name other than "lfu" behaves as LRU in `put` (the eviction
`else` branch). -/
theorem construction_unvalidated (K V : Type) [DecidableEq K] :
    (∀ (c : Int) (p : String),
      (CacheStorage.init c p : CacheStorage K V).capacity = c ∧
      (CacheStorage.init c p : CacheStorage K V).eviction_policy = p ∧
      (CacheStorage.init c p : CacheStorage K V).data = [])
    ∧ ∀ (s : CacheStorage K V) (k : K) (v : V), s.eviction_policy ≠ "lfu" →
        ((odSet s.data k v).length : Int) > s.capacity →
        (s.put k v).data = (odSet s.data k v).tail := by
  constructor
  · intro c p
    exact ⟨rfl, rfl, rfl⟩
  · intro s k v hpol hover
    rw [put_overflow_other s k v hpol hover]

/-- Witness for `construction_unvalidated`: the "bogus"-policy storage built
with capacity 0 evicts through the LRU branch on its first put. -/
theorem construction_unvalidated_witness :
    (CacheStorage.init 0 "bogus" : CacheStorage Nat Nat).eviction_policy ≠ "lfu" ∧
      ((CacheStorage.init 0 "bogus" : CacheStorage Nat Nat).put 1 10).data
        = (odSet (CacheStorage.init 0 "bogus" : CacheStorage Nat Nat).data 1 10).tail :=
  ⟨by decide,
    (construction_unvalidated Nat Nat).2 (CacheStorage.init 0 "bogus") 1 10
      (by decide) (by decide)⟩

/-- C10: under LFU, `put` itself increments the stored key's usage counter
(writes count toward frequency: a fresh key has count 1 right after its own
put), and the just-inserted key participates in the eviction choice of that
same put — when every other resident key has a strictly larger usage count,
the newly inserted key is itself evicted immediately, leaving both the dict
and the usage counter exactly as they were before the put. -/
theorem lfu_new_key_self_eviction (K V : Type) [DecidableEq K]
    (s : CacheStorage K V) (u : List (K × Nat)) (k : K) (v : V)
    (hpol : s.eviction_policy = "lfu") (hu : s.usage = some u)
    (hfresh : odGet s.data k = none)
    (hover : ((s.data.length + 1 : Nat) : Int) > s.capacity)
    (husub : ∀ k' ∈ odKeys u, k' ∈ odKeys s.data)
    (hbig : ∀ q ∈ u, 1 < q.2) :
    cntGet (cntInc u k) k = 1 ∧ (s.put k v).data = s.data
      ∧ (s.put k v).usage = s.usage := by
  have hknotu : odGet u k = none := by
    rw [odGet_eq_none_iff]
    intro hk
    exact absurd (husub k hk) ((odGet_eq_none_iff s.data k).1 hfresh)
  have hinc : cntInc u k = u ++ [(k, 1)] := cntInc_of_fresh u k hknotu
  have hset : odSet s.data k v = s.data ++ [(k, v)] := odSet_of_fresh s.data k v hfresh
  have hover2 : ((odSet s.data k v).length : Int) > s.capacity := by
    rw [hset]
    simpa using hover
  have hlc : leastCommon (cntInc u k) = some (k, 1) := by
    obtain ⟨q, hq, hqmem, hqmin, -⟩ := leastCommon_spec (cntInc u k) (cntInc_ne_nil u k)
    have hq1 : q.2 ≤ 1 := hqmin (k, 1) (by rw [hinc]; simp)
    have hqk : q = (k, 1) := by
      rw [hinc] at hqmem
      rcases List.mem_append.1 hqmem with h | h
      · have := hbig q h
        omega
      · simpa using h
    rw [hq, hqk]
  obtain ⟨lu, hlu, hput⟩ := put_overflow_lfu s k v u hpol hu hover2
  rw [hlc] at hlu
  injection hlu with hlu
  subst hlu
  rw [hput]
  refine ⟨?_, ?_, ?_⟩
  · rw [cntGet_cntInc_self]
    simp [cntGet, hknotu]
  · show odDel (odSet s.data k v) k = s.data
    rw [hset, odDel_append, odDel_of_fresh s.data k ((odGet_eq_none_iff s.data k).1 hfresh)]
    simp [odDel]
  · show some (odDel (cntInc u k) k) = s.usage
    rw [hu, hinc, odDel_append, odDel_of_fresh u k ((odGet_eq_none_iff u k).1 hknotu)]
    simp [odDel]

/-- Witness for `lfu_new_key_self_eviction`: key 5 read twice (count 3), then
putting fresh key 6 into the full capacity-1 storage evicts key 6 itself. -/
theorem lfu_new_key_self_eviction_witness :
    (∀ q ∈ [((5 : Nat), (3 : Nat))], 1 < q.2) ∧
      ((((((CacheStorage.init 1 "lfu" : CacheStorage Nat Nat).put 5 50).get 5).2.get
        5).2.put 6 60).data
        = (((((CacheStorage.init 1 "lfu" : CacheStorage Nat Nat).put 5 50).get
          5).2.get 5).2.data)) :=
  ⟨by decide,
    (lfu_new_key_self_eviction Nat Nat
      (((((CacheStorage.init 1 "lfu" : CacheStorage Nat Nat).put 5 50).get 5).2.get 5).2)
      [(5, 3)] 6 60 (by decide) (by decide) (by decide) (by decide) (by decide)
      (by decide)).2.1⟩


/-! Backend-layer lemmas and the compression and corruption claims. -/

theorem zlibDecompress_zlibCompress (v : List Nat) :
    zlibDecompress (zlibCompress v) = Except.ok v := by
  simp [zlibCompress, zlibDecompress]

theorem zlibDecompress_corrupt (cd : List Nat) (h : ∀ v, cd ≠ zlibCompress v) :
    zlibDecompress cd = Except.error PyErr.zlibError := by
  match cd with
  | [] => rfl
  | [a] => rfl
  | a :: b :: t =>
    simp only [zlibDecompress]
    rw [if_neg]
    rintro ⟨ha, hb⟩
    exact h t (by rw [ha, hb]; rfl)

theorem backend_get_some (b : CacheBackend K) (k : K) (cd : List Nat)
    (h : odGet b.storage.data k = some cd) (hne : cd ≠ []) :
    b.get k =
      match zlibDecompress cd with
      | Except.ok v => Except.ok (some v, ⟨(b.storage.get k).2⟩)
      | Except.error e => Except.error e := by
  simp only [CacheBackend.get, storage_get_fst, h, if_neg hne]

/-- C7 counterexample: a storage entry holding the corrupted byte string [9]
makes `CacheBackend.get` — and therefore `Cache.get`, which has no handler
either — raise `zlib.error` instead of returning absent. -/
theorem backend_corruption_error_cex :
    CacheBackend.get (K := Nat) ⟨⟨[(1, [9])], none, 10, "lru"⟩⟩ 1
      = Except.error PyErr.zlibError
    ∧ Cache.get
        { backend := ⟨⟨[(1, [9])], none, 10, "lru"⟩⟩, ttl := some 300, hits := 0,
          misses := 0, cleanup_interval := 150 } 1 0
      = Except.error PyErr.zlibError :=
  ⟨rfl, rfl⟩

/-- C7 amended: `CacheBackend.get` wraps `zlib.decompress` in no handler, so
on any resident nonempty entry that is not a well-formed compressed string the
`zlib.error` propagates to the caller instead of being turned into a miss. -/
theorem backend_corruption_propagates (K : Type) [DecidableEq K]
    (b : CacheBackend K) (k : K) (cd : List Nat)
    (hget : odGet b.storage.data k = some cd) (hne : cd ≠ [])
    (hcorrupt : ∀ v, cd ≠ zlibCompress v) :
    b.get k = Except.error PyErr.zlibError := by
  simp only [backend_get_some b k cd hget hne, zlibDecompress_corrupt cd hcorrupt]

/-- Witness for `backend_corruption_propagates` at the concrete corrupted
entry [9]. -/
theorem backend_corruption_propagates_witness :
    ([9] : List Nat) ≠ [] ∧
      CacheBackend.get (K := Nat) ⟨⟨[(2, [9])], none, 10, "lru"⟩⟩ 2
        = Except.error PyErr.zlibError :=
  ⟨by decide,
    backend_corruption_propagates Nat ⟨⟨[(2, [9])], none, 10, "lru"⟩⟩ 2 [9] rfl
      (by decide) (fun v h => by simp [zlibCompress] at h)⟩

/-- C8: the compression round-trip law holds for every byte payload including
the empty one, and consequently a `CacheBackend.put` that triggers no eviction
(the storage is strictly below capacity) followed by `CacheBackend.get` of the
same key returns exactly the stored payload. -/
theorem compression_roundtrip (K : Type) [DecidableEq K] :
    (∀ v : List Nat, zlibDecompress (zlibCompress v) = Except.ok v)
    ∧ ∀ (b : CacheBackend K) (k : K) (v : List Nat),
        (b.storage.data.length : Int) < b.storage.capacity →
        ∃ b1, (b.put k v).get k = Except.ok (some v, b1) := by
  refine ⟨zlibDecompress_zlibCompress, ?_⟩
  intro b k v hlen
  refine ⟨⟨((b.put k v).storage.get k).2⟩, ?_⟩
  have hsetlen := odSet_length_le b.storage.data k (zlibCompress v)
  have hnover : ¬ ((odSet b.storage.data k (zlibCompress v)).length : Int)
      > b.storage.capacity := by
    push_cast at hlen ⊢
    omega
  have hput : (b.put k v).storage =
      { b.storage with
        data := odSet b.storage.data k (zlibCompress v),
        usage := if b.storage.eviction_policy = "lfu" then
                   b.storage.usage.map (fun u => cntInc u k)
                 else b.storage.usage } := by
    show b.storage.put k (zlibCompress v) = _
    exact put_of_no_overflow _ _ _ hnover
  have hget : odGet (b.put k v).storage.data k = some (zlibCompress v) := by
    rw [hput]
    exact odGet_odSet_self _ _ _
  simp only [backend_get_some (b.put k v) k (zlibCompress v) hget (by simp [zlibCompress]),
    zlibDecompress_zlibCompress]

/-- Witness for `compression_roundtrip`: the EMPTY payload stored into an
empty capacity-1 backend and read straight back. -/
theorem compression_roundtrip_witness :
    (((⟨CacheStorage.init 1 "lru"⟩ : CacheBackend Nat).storage.data.length : Int)
        < (⟨CacheStorage.init 1 "lru"⟩ : CacheBackend Nat).storage.capacity)
    ∧ ∃ b1, ((⟨CacheStorage.init 1 "lru"⟩ : CacheBackend Nat).put 1 []).get 1
        = Except.ok (some [], b1) :=
  ⟨by decide,
    (compression_roundtrip Nat).2 ⟨CacheStorage.init 1 "lru"⟩ 1 [] (by decide)⟩

/-! Cache-layer evaluations for the claims broken by the value pipeline. -/

/-- Backend holding the two-byte entry (5, 7) at key 1, written through
`CacheBackend.put` — the only write path in the pipeline that does not raise,
since `Cache.put` hands `zlib.compress` a tuple. -/
def demoBackend : CacheBackend Nat :=
  CacheBackend.put ⟨CacheStorage.init 10 "lru"⟩ 1 [5, 7]

/-- The cache that `Cache.init demoBackend (some 300)` constructs. -/
def demoCache : Cache Nat :=
  { backend := demoBackend, ttl := some 300, hits := 0, misses := 0,
    cleanup_interval := 150 }

/-- C2: evaluation of the code at the failing inputs.  (1) Construction with
TTL 300 succeeds, but (2) every `Cache.put` raises `TypeError`, because it
passes the `(timestamp, value)` tuple to `zlib.compress`, so no entry can ever
become present through the public interface.  (3) On an entry placed directly
through `CacheBackend.put`, an expired `Cache.get` returns absent WITHOUT
incrementing `misses` (the expired branch deletes and returns early), and
(4) a fresh `Cache.get` does increment `hits` — returning the unpacked
integer, not the stored byte string. -/
theorem cache_put_raises_and_expiry_uncounted :
    Cache.init demoBackend (some 300) = Except.ok demoCache
    ∧ demoCache.put 1 (PyVal.pybytes [1]) 0 = Except.error PyErr.typeError
    ∧ (demoCache.get 1 1000).map (fun r => (r.1, r.2.hits, r.2.misses))
        = Except.ok (none, 0, 0)
    ∧ (demoCache.get 1 100).map (fun r => (r.1, r.2.hits, r.2.misses))
        = Except.ok (some (PyVal.pyint 7), 1, 0) :=
  ⟨rfl, rfl, rfl, rfl⟩

/-- The cache that `Cache.init demoBackend (some 0)` constructs: TTL 0 falls
back to the default sweep interval 300. -/
def demoCache0 : Cache Nat :=
  { backend := demoBackend, ttl := some 0, hits := 0, misses := 0,
    cleanup_interval := 300 }

/-- C6: evaluation of the code at the failing input.  Constructing a `Cache`
with TTL absent raises `TypeError` — `__init__` computes `ttl // 2 or 300` and
`None // 2` raises before the `or` can supply the default — so the "absent"
half of the claim fails at construction.  With TTL zero, construction succeeds
with the default interval 300, and a `get` after an arbitrarily long time is
still a fresh hit (the `self.ttl and ...` test is falsy for 0). -/
theorem cache_ttl_none_raises :
    Cache.init demoBackend none = Except.error PyErr.typeError
    ∧ Cache.init demoBackend (some 0) = Except.ok demoCache0
    ∧ demoCache0.cleanup_interval = 300
    ∧ (demoCache0.get 1 1000000).map (fun r => (r.1, r.2.hits))
        = Except.ok (some (PyVal.pyint 7), 1) :=
  ⟨rfl, rfl, rfl, rfl⟩

/-- A freshly constructed cache over an empty storage, for the memoization
wrapper evaluation. -/
def freshCache : Cache String :=
  { backend := ⟨CacheStorage.init 10 "lru"⟩, ttl := some 300, hits := 0,
    misses := 0, cleanup_interval := 150 }

/-- C9: evaluation of the code at the failing input.  The wrapper's key
derivation is a deterministic function of the arguments and its cache check is
a miss on a fresh cache (misses becomes 1), but storing the computed result
raises `TypeError` out of the wrapped call — `self.put` hands the
`(timestamp, result)` tuple to `zlib.compress` — so the wrapper never returns
the result of a miss. -/
theorem memoize_store_raises :
    (freshCache.get (sha256hex "args") 0).map (fun r => (r.1, r.2.misses))
        = Except.ok (none, 1)
    ∧ freshCache.async_memoize (Except.ok (PyVal.pybytes [1])) "args" 0
        = Except.error PyErr.typeError :=
  ⟨rfl, rfl⟩


end Cacher
